import Mathlib

set_option maxRecDepth 8000

deriving instance DecidableEq for Except

/-!
Verification development for the `trurl` fork in `src/trurl.c` (jacobmealey/urler).

The bespoke logic of the program — query-pair extraction/trim/rebuild,
the `--get` format mini-language, `--set` application, `--iterate`
variant-chain expansion, and the per-URL driver loops of `main` — is
embedded shallowly below.  Strings are modelled as `List Char` (the C
code works on NUL-terminated `char*`; a Lean list plays that role, with
"the NUL" being the end of the list).  The external libcurl URL engine
(`curl_url_set` / `curl_url_get` / parsing) is not part of the
repository; it is modelled from the spec's description of its boundary
(`parse`, `get`, `set` over the 11 named components).
-/

/-- ASCII lower-casing of one character, the behaviour of `strncasecmp`
in the C locale. -/
def lowerChar (c : Char) : Char :=
  if 'A' ≤ c ∧ c ≤ 'Z' then Char.ofNat (c.toNat + 32) else c

/-- Lower-case a whole string (as a character list). -/
def lowerList (s : List Char) : List Char := s.map lowerChar

/-- Case-insensitive equality of two character lists; `strcasecmp`-style. -/
def caseEqB (a b : List Char) : Bool := decide (lowerList a = lowerList b)

/-- Value of a hexadecimal digit character, if it is one. -/
def hexVal (c : Char) : Option Nat :=
  if '0' ≤ c ∧ c ≤ '9' then some (c.toNat - 48)
  else if 'A' ≤ c ∧ c ≤ 'F' then some (c.toNat - 55)
  else if 'a' ≤ c ∧ c ≤ 'f' then some (c.toNat - 87)
  else none

/-- Modelled from the spec: percent-decoding as performed by the external
URL engine when `CURLU_URLDECODE` is passed to `get` (the repository
delegates all decoding to the engine). -/
def percentDecode : List Char → List Char
  | [] => []
  | '%' :: h :: l :: rest =>
    match hexVal h, hexVal l with
    | some a, some b => Char.ofNat (16 * a + b) :: percentDecode rest
    | _, _ => '%' :: percentDecode (h :: l :: rest)
  | c :: rest => c :: percentDecode rest

/-- Upper-case hexadecimal digit. -/
def hexDigit (n : Nat) : Char :=
  if n < 10 then Char.ofNat (48 + n) else Char.ofNat (55 + (n - 10))

/-- Percent-encode one character. -/
def pctEncodeChar (c : Char) : List Char :=
  ['%', hexDigit (c.toNat / 16 % 16), hexDigit (c.toNat % 16)]

/-- Modelled from the spec: characters the external engine leaves as-is
when URL-encoding a component value on `set` (unreserved and URL
structural characters); everything else is percent-encoded. -/
def keepOnEncode (c : Char) : Bool :=
  c.isAlphanum || c ∈ ['-', '.', '_', '~', '/', ':', '@', '[', ']', '+']

/-- Modelled from the spec: the engine's `CURLU_URLENCODE` treatment of a
component value passed to `set`. -/
def setEncode (s : List Char) : List Char :=
  s.flatMap (fun c => if keepOnEncode c then [c] else pctEncodeChar c)

/-- A parsed URL handle: the 10 stored components (the 11th component,
`url`, is recomposed on demand).  Modelled from the spec's description of
the external engine's handle. -/
structure UrlHandle where
  scheme : Option (List Char)
  user : Option (List Char)
  password : Option (List Char)
  options : Option (List Char)
  host : Option (List Char)
  port : Option (List Char)
  path : Option (List Char)
  query : Option (List Char)
  fragment : Option (List Char)
  zoneid : Option (List Char)
deriving DecidableEq

/-- A fresh handle, as returned by `curl_url()`. -/
def emptyHandle : UrlHandle := ⟨none, none, none, none, none, none, none, none, none, none⟩

/-- Scan for the literal `://` separator, returning the text before it and
the text after it. -/
def splitSchemeGo (acc : List Char) : List Char → Option (List Char × List Char)
  | [] => none
  | ':' :: '/' :: '/' :: rest => some (acc.reverse, rest)
  | c :: rest => splitSchemeGo (c :: acc) rest

/-- Modelled from the spec: the external engine's `parse(url, flags)`.
Splits `scheme://host[:port][/path][?query][#fragment]`; components the
claims never exercise (user, password, options, zoneid) are left absent.
A URL without `://` or without a host is a parse error (`none`). -/
def specParse (url : List Char) : Option UrlHandle :=
  match splitSchemeGo [] url with
  | none => none
  | some (sch, rest) =>
    let hostport := rest.takeWhile (fun c => c ≠ '/' ∧ c ≠ '?' ∧ c ≠ '#')
    let rest2 := rest.dropWhile (fun c => c ≠ '/' ∧ c ≠ '?' ∧ c ≠ '#')
    let host := hostport.takeWhile (fun c => c ≠ ':')
    let portRest := hostport.dropWhile (fun c => c ≠ ':')
    let port := if portRest = [] then none else some portRest.tail
    let pathPart := rest2.takeWhile (fun c => c ≠ '?' ∧ c ≠ '#')
    let rest3 := rest2.dropWhile (fun c => c ≠ '?' ∧ c ≠ '#')
    let path := if pathPart = [] then ('/' :: []) else pathPart
    let query :=
      if rest3.head? = some '?' then some (rest3.tail.takeWhile (fun c => c ≠ '#')) else none
    let fragment :=
      if rest3.head? = some '?' then
        (let r4 := rest3.tail.dropWhile (fun c => c ≠ '#')
         if r4 = [] then none else some r4.tail)
      else if rest3.head? = some '#' then some rest3.tail
      else none
    if host = [] then none
    else some ⟨some sch, none, none, none, some host, port, some path, query, fragment, none⟩

/-- Modelled from the spec: the engine's recomposition of the full URL
from the stored components (`get` on the `url` component); fails when no
scheme or no host is present ("not enough input for a URL"). -/
def recomposeUrl (uh : UrlHandle) : Option (List Char) :=
  match uh.scheme, uh.host with
  | some s, some h =>
    some (s ++ (":" ++ "//").data ++ h ++
      (match uh.port with | some p => ':' :: p | none => []) ++
      (uh.path.getD ('/' :: [])) ++
      (match uh.query with | some q => '?' :: q | none => []) ++
      (match uh.fragment with | some f => '#' :: f | none => []))
  | _, _ => none

/-- The fixed component table of `src/trurl.c` (`variables[]`, lines
58-71), in its source order. -/
def varNames : List (List Char) :=
  [("url").data, ("scheme").data, ("user").data, ("password").data,
   ("options").data, ("host").data, ("port").data, ("path").data,
   ("query").data, ("fragment").data, ("zoneid").data]

/-- `curl_url_get` on component index `i` (order of `varNames`);
index 0 recomposes the whole URL. -/
def getComp (uh : UrlHandle) : Nat → Option (List Char)
  | 0 => recomposeUrl uh
  | 1 => uh.scheme
  | 2 => uh.user
  | 3 => uh.password
  | 4 => uh.options
  | 5 => uh.host
  | 6 => uh.port
  | 7 => uh.path
  | 8 => uh.query
  | 9 => uh.fragment
  | 10 => uh.zoneid
  | _ => none

/-- `curl_url_set` on component index `i`; `none` clears the component,
and index 0 re-parses the value as a whole URL (a failed re-parse is the
ignored error return of `curl_url_set`). -/
def setCompIdx (uh : UrlHandle) (i : Nat) (v : Option (List Char)) : UrlHandle :=
  match i with
  | 0 =>
    (match v with
     | none => uh
     | some s => match specParse s with | some uh2 => uh2 | none => uh)
  | 1 => { uh with scheme := v }
  | 2 => { uh with user := v }
  | 3 => { uh with password := v }
  | 4 => { uh with options := v }
  | 5 => { uh with host := v }
  | 6 => { uh with port := v }
  | 7 => { uh with path := v }
  | 8 => { uh with query := v }
  | 9 => { uh with fragment := v }
  | 10 => { uh with zoneid := v }
  | _ => uh

/-- Search the component table for a name of the given length matching
case-insensitively, as the loops of `set()` and `get()` do; returns the
first matching index. -/
def findVarGo (k : Nat) (nm : List Char) : List (List Char) → Option Nat
  | [] => none
  | v :: vs =>
    if v.length = nm.length ∧ caseEqB v nm then some k else findVarGo (k + 1) nm vs

/-- Index of a component name in `variables`, matched case-insensitively. -/
def findVarIdx (nm : List Char) : Option Nat := findVarGo 0 nm varNames

/-! ## Query pairs (`src/trurl.c` lines 164-166, 741-806) -/

/-- `MAX_QPAIRS` of `src/trurl.c` line 164. -/
def MAX_QPAIRS : Nat := 1000

/-- The global `qpairs` array and a count of emitted "too many query
pairs" warnings (`warnf` is non-fatal). -/
structure QPState where
  pairs : List (List Char)
  warns : Nat
deriving DecidableEq

/-- `addqpair` (lines 751-762): store the pair when fewer than
`MAX_QPAIRS` are stored, otherwise warn and drop it. -/
def addqpair (st : QPState) (pair : List Char) : QPState :=
  if st.pairs.length < MAX_QPAIRS then ⟨st.pairs ++ [pair], st.warns⟩
  else ⟨st.pairs, st.warns + 1⟩

/-- The scanning loop of `extractqpairs` (lines 772-786): `acc` holds the
current pair's characters in reverse.  On `&` the current pair is stored
and, only when characters remain after the `&`, scanning continues
(`p = amp + 1` followed by the `while(*p)` test). -/
def extractGo (st : QPState) (acc : List Char) : List Char → QPState
  | [] => addqpair st acc.reverse
  | c :: rest =>
    if c = '&' then
      if rest = [] then addqpair st acc.reverse
      else extractGo (addqpair st acc.reverse) [] rest
    else extractGo st (c :: acc) rest

/-- `extractqpairs` (lines 765-789) applied to the raw query string the
engine returned: an empty query stores nothing (`while(*p)` fails at
once). -/
def extractqpairs (q : List Char) : QPState :=
  if q = [] then ⟨[], 0⟩ else extractGo ⟨[], 0⟩ [] q

/-- One step of the `qpair2query` reassembly loop (lines 796-799): a `&`
separator is inserted only when the accumulated string is non-NULL and
non-empty and the next pair is non-empty. -/
def joinStep (nq : Option (List Char)) (p : List Char) : Option (List Char) :=
  some ((nq.getD []) ++ (if nq.isSome ∧ nq.getD [] ≠ [] ∧ p ≠ [] then ['&'] else []) ++ p)

/-- `qpair2query` (lines 791-806) up to the final `curl_url_set`:
`none` means `nq` stayed NULL and the query component is left untouched. -/
def qpair2query (pairs : List (List Char)) : Option (List Char) :=
  pairs.foldl joinStep none

/-- Splitting a list on every occurrence of a separator character
(ordinary split semantics, keeping empty fields). -/
def splitOnChar (sep : Char) : List Char → List (List Char)
  | [] => [[]]
  | c :: cs =>
    if c = sep then [] :: splitOnChar sep cs
    else (splitOnChar sep cs).modifyHead (fun t => c :: t)

/-- The pair sequence the `extractqpairs` loop emits (before capacity),
written as a standalone recursion: the segment before each `&` is
emitted, and scanning stops after a trailing `&`. -/
def splitAmpGo (acc : List Char) : List Char → List (List Char)
  | [] => [acc.reverse]
  | c :: rest =>
    if c = '&' then acc.reverse :: (if rest = [] then [] else splitAmpGo [] rest)
    else splitAmpGo (c :: acc) rest

/-- Amended specification of `extract` (claim C4): split the query on
`&` keeping empty fields; when the query ends in a trailing `&` the
final empty field is not stored; at most `MAX_QPAIRS` pairs are kept. -/
def specExtract (q : List Char) : List (List Char) :=
  if q = [] then []
  else
    (if q.getLast? = some '&' then (splitOnChar '&' q).dropLast
     else splitOnChar '&' q).take MAX_QPAIRS

/-- Joining pairs with a `&` separator (the expected inverse of
splitting). -/
def joinAmp : List (List Char) → List Char
  | [] => []
  | [p] => p
  | p :: ps => p ++ '&' :: joinAmp ps

/-! ## Trim (`src/trurl.c` lines 684-727) -/

/-- The matching test of `trim()` (lines 702-719) of one stored pair `q`
against a trim pattern `pat`: `inslen` and the `pattern` flag are
computed from the pattern, the key length from the position of the first
`=` of the pair, and the comparison is `strncasecmp` over the first
`inslen` characters. -/
def trimMatchCode (pat q : List Char) : Bool :=
  let pattern := decide (pat.getLast? = some '*')
  let inslen := if pattern then pat.length - 1 else pat.length
  let qlen := (q.takeWhile (fun c => c ≠ '=')).length
  (pattern && decide (inslen ≤ qlen) && caseEqB (q.take inslen) (pat.take inslen)) ||
  (!pattern && decide (inslen = qlen) && caseEqB (q.take inslen) (pat.take inslen))

/-- The specification's wording of the same test (claim C5): the pattern
is compared case-insensitively against the key portion (text before the
first `=`, or the whole pair); a pattern ending in `*` prefix-matches
keys of length at least the pattern's length minus one; any other
pattern matches only keys of exactly the pattern's length. -/
def trimMatchSpec (pat q : List Char) : Bool :=
  let key := q.takeWhile (fun c => c ≠ '=')
  if pat.getLast? = some '*' then
    decide (pat.length - 1 ≤ key.length) &&
      (lowerList pat.dropLast).isPrefixOf (lowerList key)
  else
    decide (key.length = pat.length) && caseEqB key pat

/-- One directive of the `trim()` loop (lines 688-725): a directive whose
first five characters are not `query` (case-insensitively) is a fatal
"Unsupported trim component" error; a directive without `=` (or with it
first) silently does nothing; otherwise every matching stored pair is
tombstoned to the empty string in place. -/
def trimDirective (instr : List Char) (pairs : List (List Char)) :
    Except Unit (List (List Char)) :=
  if ¬ (caseEqB (instr.take 5) (("query").data)) then Except.error ()
  else
    let k := (instr.takeWhile (fun c => c ≠ '=')).length
    if k = instr.length ∨ k = 0 then Except.ok pairs
    else
      let pat := instr.drop (k + 1)
      Except.ok (pairs.map (fun q => if trimMatchCode pat q then [] else q))

/-- The full `trim()` loop over the variant's trim directives. -/
def trimRun : List (List Char) → List (List Char) → Except Unit (List (List Char))
  | [], pairs => Except.ok pairs
  | d :: ds, pairs =>
    match trimDirective d pairs with
    | Except.error e => Except.error e
    | Except.ok pairs2 => trimRun ds pairs2

/-! ## Set (`src/trurl.c` lines 577-616) -/

/-- The error exits of `set()`. -/
inductive SetErr where
  | badsyntax
  | unknown
  | setOnce
deriving DecidableEq

/-- Parsing of one `--set` directive inside `set()` (lines 585-598): the
first `=` must exist and not be first; a `:` immediately before it
disables encoding; the name before it must be a known component. -/
def parseSetDirective (d : List Char) : Except SetErr (Nat × Bool × List Char) :=
  let k := (d.takeWhile (fun c => c ≠ '=')).length
  if k = d.length then Except.error SetErr.badsyntax
  else if k = 0 then Except.error SetErr.badsyntax
  else
    let colon := d.get? (k - 1) = some ':'
    let vlen := if colon then k - 1 else k
    match findVarIdx (d.take vlen) with
    | some i => Except.ok (i, !colon, d.drop (k + 1))
    | none => Except.error SetErr.unknown

/-- The `struct option *o` passed to `set()` is `&o` from `main` or a
`malloc`ed chain node at every call site, so the C pointer test `!o` in
the guard on line 599 is false. -/
def o_is_null : Bool := false

/-- The value handed to `curl_url_set` for one directive: an empty value
passes NULL (clearing the component), and `CURLU_URLENCODE` is applied
unless the directive used `component:=`. -/
def applySetValue (enc : Bool) (v : List Char) : Option (List Char) :=
  if v = [] then none else some (if enc then setEncode v else v)

/-- One iteration of the `set()` loop (lines 584-615), threading the
`varset[]` array. -/
def setApply1 (uh : UrlHandle) (vs : Nat → Bool) (d : List Char) :
    Except SetErr (UrlHandle × (Nat → Bool)) :=
  match parseSetDirective d with
  | Except.error e => Except.error e
  | Except.ok (i, enc, v) =>
    if vs i && o_is_null then Except.error SetErr.setOnce
    else Except.ok (setCompIdx uh i (applySetValue enc v), fun j => if j = i then true else vs j)

/-- The `set()` loop over a variant's set-list. -/
def setRunGo (uh : UrlHandle) (vs : Nat → Bool) : List (List Char) → Except SetErr UrlHandle
  | [] => Except.ok uh
  | d :: ds =>
    match setApply1 uh vs d with
    | Except.error e => Except.error e
    | Except.ok (uh2, vs2) => setRunGo uh2 vs2 ds

/-- `set()` (lines 577-616): `varset[]` starts zeroed. -/
def setRun (uh : UrlHandle) (ds : List (List Char)) : Except SetErr UrlHandle :=
  setRunGo uh (fun _ => false) ds

/-- The component index a directive names, when it parses. -/
def targetOf (d : List Char) : Option Nat :=
  match parseSetDirective d with
  | Except.ok (i, _, _) => some i
  | Except.error _ => none

/-- The encoding flag and raw value of a directive, when it parses. -/
def encValOf (d : List Char) : Option (Bool × List Char) :=
  match parseSetDirective d with
  | Except.ok (_, enc, v) => some (enc, v)
  | Except.error _ => none

/-- The last directive of the list that names component `i`, if any
(specification side of claim C10's "last directive wins"). -/
def lastSet : List (List Char) → Nat → Option (Bool × List Char)
  | [], _ => none
  | d :: ds, i =>
    match lastSet ds i with
    | some x => some x
    | none => if targetOf d = some i then encValOf d else none

/-! ## The `--get` format interpreter (`src/trurl.c` lines 485-575) -/

/-- Output of one brace reference (the inner `for` loop of `get()`,
lines 510-546): an optional leading `:` disables decoding; every entry
of the component table whose name matches case-insensitively contributes its
component value (absent components are silently skipped). -/
def refOutput (uh : UrlHandle) (inner : List Char) : List Char :=
  let urldecode := inner.head? ≠ some ':'
  let nm := if inner.head? = some ':' then inner.tail else inner
  (List.range varNames.length).foldl
    (fun acc i =>
      let v := varNames.getD i []
      if v.length = nm.length ∧ caseEqB v nm then
        acc ++ (match getComp uh i with
                | none => []
                | some s => if urldecode then percentDecode s else s)
      else acc) []

/-- The character loop of `get()` (lines 491-573), fuelled: every
iteration consumes at least one character, so fuel equal to the input
length suffices.  `{` before `{` emits a literal `{`; an unclosed `{`
falls through `continue` and scanning resumes right after it; `\\r`,
`\\n`, `\\t` escape, any other escaped character is emitted with its
backslash. -/
def renderGo (uh : UrlHandle) : Nat → List Char → List Char
  | 0, _ => []
  | _ + 1, [] => []
  | f + 1, c :: rest =>
    if c = '{' then
      if rest.head? = some '{' then '{' :: renderGo uh f rest.tail
      else
        (let dw := rest.dropWhile (fun x => x ≠ '}')
         if dw = [] then renderGo uh f rest
         else refOutput uh (rest.takeWhile (fun x => x ≠ '}')) ++ renderGo uh f dw.tail)
    else if c = '\\' then
      (if rest = [] then [c]
       else
         (let e := rest.headD ' '
          (if e = 'r' then ['\r']
           else if e = 'n' then ['\n']
           else if e = 't' then ['\t']
           else [c, e]) ++ renderGo uh f rest.tail))
    else c :: renderGo uh f rest

/-- The body `get()` prints before its final newline. -/
def renderBody (uh : UrlHandle) (fmt : List Char) : List Char :=
  renderGo uh fmt.length fmt

/-- `get()` (lines 485-575): the rendered format string followed by the
single trailing newline of line 574. -/
def render (uh : UrlHandle) (fmt : List Char) : List Char :=
  renderBody uh fmt ++ ['\n']

/-! ## JSON output (`src/trurl.c` lines 618-682) -/

/-- Lower-case hexadecimal digit (for `%04x`). -/
def hexDigitLower (n : Nat) : Char :=
  if n < 10 then Char.ofNat (48 + n) else Char.ofNat (87 + (n - 10))

/-- Four lower-case hex digits. -/
def hex4 (n : Nat) : List Char :=
  [hexDigitLower (n / 4096 % 16), hexDigitLower (n / 256 % 16),
   hexDigitLower (n / 16 % 16), hexDigitLower (n % 16)]

/-- `jsonString`'s escaping of one character (lines 624-659), including
the source's `u%04x` output (without a backslash) for other control
characters. -/
def jsonEscapeChar (lowercase : Bool) (c : Char) : List Char :=
  if c = '\\' then ['\\', '\\']
  else if c = '"' then ['\\', '"']
  else if c.toNat = 8 then ['\\', 'b']
  else if c.toNat = 12 then ['\\', 'f']
  else if c = '\n' then ['\\', 'n']
  else if c = '\r' then ['\\', 'r']
  else if c = '\t' then ['\\', 't']
  else if c.toNat < 32 then 'u' :: hex4 c.toNat
  else if lowercase ∧ 'A' ≤ c ∧ c ≤ 'Z' then [Char.ofNat (c.toNat + 32)]
  else [c]

/-- `jsonString` (lines 618-662). -/
def jsonString (lowercase : Bool) (s : List Char) : List Char :=
  '"' :: s.flatMap (jsonEscapeChar lowercase) ++ ['"']

/-- `json()` (lines 664-682): a leading `,\n` once a URL has already been
printed, then one line per resolvable component (decoded), each after
the first preceded by `,\n`. -/
def jsonOut (urls : Nat) (uh : UrlHandle) : List Char :=
  (if urls ≠ 0 then (",").data ++ ['\n'] else []) ++ ("  ").data ++ ['{', '\n'] ++
  ((List.range varNames.length).foldl
    (fun acc i =>
      match getComp uh i with
      | none => acc
      | some v =>
        acc ++ (if i ≠ 0 then (",").data ++ ['\n'] else []) ++
        ("    ").data ++ ['"'] ++ varNames.getD i [] ++ ['"'] ++ (": ").data ++
        jsonString false (percentDecode v)) []) ++
  ['\n', ' ', ' ', '}']

/-! ## Iteration expansion (`src/trurl.c` lines 279-296, 341-419, 470-475) -/

/-- Errors of the `--iterate` handling: a malformed directive
(`ERROR_ITER` "Missing arguments for iterator") or a duplicate flag
(`ERROR_ITER` "only one --iterate is supported"). -/
inductive IterErr where
  | missing
  | duplicate
deriving DecidableEq

/-- The prefix recognition of `iterate()` (lines 365-374): the exact
character counts of the three `strncmp` calls, the `buffer` prefix each
writes, and the `offset` value each sets. -/
def iterParts (arg : List Char) : Option (List Char × Nat) :=
  if arg.take 5 = ("hosts").data then some (("host=").data, 5)
  else if arg.take 6 = ("ports=").data then some (("port=").data, 5)
  else if arg.take 8 = ("schemes=").data then some (("scheme=").data, 7)
  else none

/-- The tokens the scanning loop of `iterate()` (lines 394-416) cuts out
of the directive's remainder: split on single spaces, except that a
trailing space produces no final empty token (the `*(ptr + 1) == '\0'`
branch never fires for it). -/
def iterRemTokens (arg : List Char) (off : Nat) : List (List Char) :=
  let rem := arg.drop (off + 1)
  let ts := splitOnChar ' ' rem
  if rem.getLast? = some ' ' then ts.dropLast else ts

/-- Number of tokens a directive carries (0 when the prefix is not
recognised). -/
def numTokens (arg : List Char) : Nat :=
  match iterParts arg with
  | none => 0
  | some (_, off) => (iterRemTokens arg off).length

/-- The effect of the token loop on the option chain, with each variant
reduced to its set-list: the first token is `setadd`ed to every node of
the existing chain (`setadd` walks the `iterate` links); each further
token goes into a fresh tail node cloned with a copy of the base node's
set-list as it stands after the first token. -/
def iterateTokens (chain : List (List (List Char))) (ds : List (List Char)) :
    List (List (List Char)) :=
  match ds with
  | [] => chain
  | d :: rest =>
    let chain1 := chain.map (fun sl => sl ++ [d])
    let base1 := chain1.headD []
    chain1 ++ rest.map (fun dk => base1 ++ [dk])

/-- `iterate()` (lines 358-419): unrecognised prefix, or `offset + 1 >=
strlen(arg)`, is the fatal `ERROR_ITER` "Missing arguments" exit; the
tokens are prefixed with the singular `component=` text. -/
def iterateFn (chain : List (List (List Char))) (arg : List Char) :
    Except IterErr (List (List (List Char))) :=
  match iterParts arg with
  | none => Except.error IterErr.missing
  | some (pre, off) =>
    if off + 1 ≥ arg.length then Except.error IterErr.missing
    else Except.ok (iterateTokens chain ((iterRemTokens arg off).map (fun t => pre ++ t)))

/-- The `--iterate` branch of `getarg()` (lines 470-475): the duplicate
check tests `op->iterate`, i.e. whether the chain already has more than
one node. -/
def processIterateFlag (chain : List (List (List Char))) (arg : List Char) :
    Except IterErr (List (List (List Char))) :=
  if 1 < chain.length then Except.error IterErr.duplicate
  else iterateFn chain arg

/-! ## The per-URL pipeline (`src/trurl.c` lines 808-896) and driver loops
(lines 898-985) -/

/-- Fatal exits reachable from `singleurl`. -/
inductive ProcErr where
  | badurl
  | setFail (e : SetErr)
  | trimFail
  | nourl
deriving DecidableEq

/-- The uniform per-process options (every chain node shares these by
the `memcpy` cloning; only the set-list is per-variant).  This matches a
command line whose other flags precede `--iterate`. -/
structure Options where
  append_path : List (List Char)
  append_query : List (List Char)
  trim_list : List (List Char)
  redirect : Option (List Char)
  format : Option (List Char)
  jsonout : Bool
  verify : Bool
  accept_space : Bool

/-- One `--append path=` segment application (lines 837-859): fetch the
current path, add a `/` unless it already ends in one, concatenate and
set. -/
def appendPathSeg (uh : UrlHandle) (seg : List Char) : UrlHandle :=
  let opath := uh.path.getD ('/' :: [])
  let np := opath ++ (if opath.getLast? = some '/' then [] else ['/']) ++ seg
  setCompIdx uh 7 (some np)

/-- `singleurl` (lines 808-896) for one variant (its set-list `sl`) and
one optional URL; `ucount` is the variant's `o->urls` counter at entry.
The returned string is what the call writes to standard output; a parse
failure without `--verify` is the early `return` after a warning (no
output). -/
def singleurl (o : Options) (sl : List (List Char)) (ucount : Nat)
    (url : Option (List Char)) : Except ProcErr (List Char) :=
  let start : Except ProcErr (Option UrlHandle) :=
    match url with
    | none => Except.ok (some emptyHandle)
    | some u =>
      match specParse u with
      | some uh =>
        Except.ok (some (match o.redirect with
                         | some r => (specParse r).getD uh
                         | none => uh))
      | none => if o.verify then Except.error ProcErr.badurl else Except.ok none
  match start with
  | Except.error e => Except.error e
  | Except.ok none => Except.ok []
  | Except.ok (some uh0) =>
    match setRun uh0 sl with
    | Except.error e => Except.error (ProcErr.setFail e)
    | Except.ok uh1 =>
      let uh2 := o.append_path.foldl appendPathSeg uh1
      let st0 := match uh2.query with
                 | none => (⟨[], 0⟩ : QPState)
                 | some q => extractqpairs q
      let st1 := o.append_query.foldl addqpair st0
      match trimRun o.trim_list st1.pairs with
      | Except.error _ => Except.error ProcErr.trimFail
      | Except.ok pairs2 =>
        let uh3 := match qpair2query pairs2 with
                   | none => uh2
                   | some nq => setCompIdx uh2 8 (some nq)
        if o.jsonout then Except.ok (jsonOut ucount uh3)
        else
          match o.format with
          | some f => Except.ok (render uh3 f)
          | none =>
            match recomposeUrl uh3 with
            | some full => Except.ok (full ++ ['\n'])
            | none => Except.error ProcErr.nourl

/-- The inner variant loop of the argv-mode driver (lines 960-963 and
967-970): every chain node is processed. -/
def runChainOn (o : Options) (chain : List (List (List Char))) (cnt : Nat)
    (u : Option (List Char)) : Except ProcErr (List Char) :=
  chain.foldl
    (fun acc sl =>
      match acc with
      | Except.error e => Except.error e
      | Except.ok out =>
        match singleurl o sl cnt u with
        | Except.error e => Except.error e
        | Except.ok s => Except.ok (out ++ s))
    (Except.ok [])

/-- Whether a URL increments the per-variant counter (it does not when
its parse fails and the pass is abandoned before `o->urls++`). -/
def urlCounted (u : List Char) : Bool := (specParse u).isSome

/-- The URL loop of argv mode (lines 953-972) over a non-empty URL
list. -/
def argvGo (o : Options) (chain : List (List (List Char))) (cnt : Nat) :
    List (List Char) → Except ProcErr (List Char)
  | [] => Except.ok []
  | u :: us =>
    match runChainOn o chain cnt (some u) with
    | Except.error e => Except.error e
    | Except.ok out =>
      match argvGo o chain (if urlCounted u then cnt + 1 else cnt) us with
      | Except.error e => Except.error e
      | Except.ok out2 => Except.ok (out ++ out2)

/-- Argv-mode processing (lines 953-972): with no URLs, one pass of every
variant over a NULL URL; otherwise every URL through every variant. -/
def processUrlsArgv (o : Options) (chain : List (List (List Char)))
    (urls : List (List Char)) : Except ProcErr (List Char) :=
  match urls with
  | [] => runChainOn o chain 0 none
  | _ :: _ => argvGo o chain 0 urls

/-- The variant walk of the file-input loop (lines 940-944): the loop
condition is `opt->iterate != NULL`, so a node whose `iterate` link is
NULL — the last node of the chain — is never processed. -/
def fileLineWalk : List (List (List Char)) → List Char →
    List (List Char × List (List Char))
  | [], _ => []
  | [_], _ => []
  | v :: rest, l => (l, v) :: fileLineWalk rest l

/-- The (URL, variant) passes file-input mode performs (lines 929-952),
one entry per `singleurl` call, in order. -/
def filePasses (chain : List (List (List Char))) (lines : List (List Char)) :
    List (List Char × List (List Char)) :=
  lines.flatMap (fun l => fileLineWalk chain l)

/-- The (URL, variant) passes argv mode performs for a non-empty URL
list (lines 955-965), one entry per `singleurl` call, in order. -/
def argvPasses (chain : List (List (List Char))) (urls : List (List Char)) :
    List (List Char × List (List Char)) :=
  urls.flatMap (fun u => chain.map (fun v => (u, v)))

/-! ## Concrete inputs used by the claims -/

/-- The chain `--iterate "hosts=a b c"` builds from a fresh base option
record. -/
def c1chain : List (List (List Char)) :=
  [[("host=a").data], [("host=a").data, ("host=b").data],
   [("host=a").data, ("host=c").data]]

/-- Options for claim C1: `--get` with format `{host}` and nothing
else. -/
def c1opts : Options :=
  ⟨[], [], [], none, some ['{', 'h', 'o', 's', 't', '}'], false, false, false⟩

/-! ## Lemmas: query extraction and reassembly -/

theorem extractGo_eq_foldl (q : List Char) :
    ∀ (st : QPState) (acc : List Char),
      extractGo st acc q = List.foldl addqpair st (splitAmpGo acc q) := by
  induction q with
  | nil => intro st acc; simp [extractGo, splitAmpGo]
  | cons c rest ih =>
    intro st acc
    by_cases hc : c = '&'
    · by_cases hr : rest = []
      · simp [extractGo, splitAmpGo, hc, hr]
      · simp [extractGo, splitAmpGo, hc, hr, ih]
    · simp [extractGo, splitAmpGo, hc, ih]

theorem foldl_addqpair (ps : List (List Char)) :
    ∀ st : QPState,
      List.foldl addqpair st ps =
        ⟨st.pairs ++ ps.take (MAX_QPAIRS - st.pairs.length),
         st.warns + (ps.length - (MAX_QPAIRS - st.pairs.length))⟩ := by
  induction ps with
  | nil => intro st; simp
  | cons p ps ih =>
    intro st
    by_cases h : st.pairs.length < MAX_QPAIRS
    · have hstep : addqpair st p = ⟨st.pairs ++ [p], st.warns⟩ := by
        simp [addqpair, h]
      have hM : MAX_QPAIRS - st.pairs.length = (MAX_QPAIRS - (st.pairs.length + 1)) + 1 := by
        omega
      rw [List.foldl_cons, hstep, ih]
      simp only [QPState.mk.injEq, List.length_append, List.length_singleton]
      constructor
      · rw [hM, List.take_succ_cons, List.append_assoc, List.singleton_append]
      · rw [hM]; simp only [List.length_cons]
        set k := MAX_QPAIRS - (st.pairs.length + 1) with hk
        omega
    · have hstep : addqpair st p = ⟨st.pairs, st.warns + 1⟩ := by
        simp [addqpair, h]
      have hM : MAX_QPAIRS - st.pairs.length = 0 := by omega
      rw [List.foldl_cons, hstep, ih]
      simp only [QPState.mk.injEq, hM, List.take_zero, List.append_nil, List.length_cons]
      refine ⟨trivial, ?_⟩
      omega

theorem splitAmpGo_seg (p : List Char) :
    ∀ (acc rest : List Char), '&' ∉ p →
      splitAmpGo acc (p ++ rest) = splitAmpGo (p.reverse ++ acc) rest := by
  induction p with
  | nil => intro acc rest _; simp
  | cons c p' ih =>
    intro acc rest h
    have hc : c ≠ '&' := by intro hh; exact h (by simp [hh])
    have hp' : '&' ∉ p' := by intro hh; exact h (by simp [hh])
    show splitAmpGo acc (c :: (p' ++ rest)) = _
    rw [splitAmpGo]
    simp only [if_neg hc]
    rw [ih (c :: acc) rest hp']
    simp [List.append_assoc]

theorem joinAmp_cons_cons (p q : List Char) (ps : List (List Char)) :
    joinAmp (p :: q :: ps) = p ++ '&' :: joinAmp (q :: ps) := rfl

theorem joinAmp_ne_nil (p : List Char) (ps : List (List Char)) (hp : p ≠ []) :
    joinAmp (p :: ps) ≠ [] := by
  cases ps with
  | nil => simpa [joinAmp]
  | cons q qs => simp [joinAmp_cons_cons, hp]

theorem splitAmpGo_join (ps : List (List Char)) :
    ∀ (p acc : List Char), '&' ∉ p → (∀ q ∈ ps, q ≠ [] ∧ '&' ∉ q) →
      splitAmpGo acc (joinAmp (p :: ps)) = (acc.reverse ++ p) :: ps := by
  induction ps with
  | nil =>
    intro p acc hp _
    show splitAmpGo acc (joinAmp [p]) = _
    have : joinAmp [p] = p := rfl
    rw [this]
    have := splitAmpGo_seg p acc [] hp
    simp only [List.append_nil] at this
    rw [this, splitAmpGo]
    simp
  | cons q ps' ih =>
    intro p acc hp hall
    have hq : q ≠ [] ∧ '&' ∉ q := hall q (by simp)
    have hJ : joinAmp (q :: ps') ≠ [] := joinAmp_ne_nil q ps' hq.1
    rw [joinAmp_cons_cons, splitAmpGo_seg p acc _ hp, splitAmpGo]
    simp only [if_pos rfl, if_neg hJ]
    rw [ih q [] hq.2 (fun r hr => hall r (by simp [hr]))]
    simp

theorem extract_join (ps : List (List Char)) (hne : ps ≠ [])
    (hall : ∀ p ∈ ps, p ≠ [] ∧ '&' ∉ p) :
    extractqpairs (joinAmp ps) =
      ⟨ps.take MAX_QPAIRS, ps.length - MAX_QPAIRS⟩ := by
  cases ps with
  | nil => exact absurd rfl hne
  | cons p ps' =>
    have hp : p ≠ [] ∧ '&' ∉ p := hall p (by simp)
    have hJ : joinAmp (p :: ps') ≠ [] := joinAmp_ne_nil p ps' hp.1
    rw [extractqpairs, if_neg hJ, extractGo_eq_foldl,
      splitAmpGo_join ps' p [] hp.2 (fun r hr => hall r (by simp [hr])),
      foldl_addqpair]
    simp

theorem foldl_joinStep (ps : List (List Char)) :
    ∀ s : List Char, s ≠ [] → (∀ p ∈ ps, p ≠ []) →
      List.foldl joinStep (some s) ps = some (joinAmp (s :: ps)) := by
  induction ps with
  | nil => intro s _ _; rfl
  | cons p ps' ih =>
    intro s hs hall
    have hp : p ≠ [] := hall p (by simp)
    have hstep : joinStep (some s) p = some (s ++ '&' :: p) := by
      simp [joinStep, hs, hp]
    rw [List.foldl_cons, hstep,
      ih (s ++ '&' :: p) (by simp) (fun r hr => hall r (by simp [hr]))]
    congr 1
    cases ps' with
    | nil => rfl
    | cons q qs => simp [joinAmp_cons_cons, List.append_assoc]

theorem qpair2query_join (ps : List (List Char)) (hne : ps ≠ [])
    (hall : ∀ p ∈ ps, p ≠ []) : qpair2query ps = some (joinAmp ps) := by
  cases ps with
  | nil => exact absurd rfl hne
  | cons p ps' =>
    have hp : p ≠ [] := hall p (by simp)
    have hstep : joinStep none p = some p := by simp [joinStep]
    rw [qpair2query, List.foldl_cons, hstep,
      foldl_joinStep ps' p hp (fun r hr => hall r (by simp [hr]))]

theorem joinAmp_replicate_length (n : Nat) (s : List Char) :
    (joinAmp (List.replicate (n + 1) s)).length = (n + 1) * s.length + n := by
  induction n with
  | zero => simp [joinAmp]
  | succ n ih =>
    have h2 : List.replicate (n + 1) s = s :: List.replicate n s := List.replicate_succ s n
    have h1 : List.replicate (n + 2) s = s :: List.replicate (n + 1) s := List.replicate_succ s (n + 1)
    rw [h1, h2, joinAmp_cons_cons, ← h2]
    rw [List.length_append, List.length_cons, ih]
    ring


/-! ## Lemmas: relating the extraction loop to an ordinary split -/

theorem splitOnChar_cons (sep c : Char) (cs : List Char) :
    splitOnChar sep (c :: cs) =
      if c = sep then [] :: splitOnChar sep cs
      else (splitOnChar sep cs).modifyHead (fun t => c :: t) := rfl

theorem splitAmpGo_cons (acc : List Char) (c : Char) (rest : List Char) :
    splitAmpGo acc (c :: rest) =
      if c = '&' then acc.reverse :: (if rest = [] then [] else splitAmpGo [] rest)
      else splitAmpGo (c :: acc) rest := rfl

theorem modifyHead_comp (l : List (List Char)) (f g : List Char → List Char) :
    (l.modifyHead g).modifyHead f = l.modifyHead (fun t => f (g t)) := by
  cases l <;> simp

theorem modifyHead_ext (l : List (List Char)) (f g : List Char → List Char)
    (h : ∀ t, f t = g t) : l.modifyHead f = l.modifyHead g := by
  cases l <;> simp [h]

theorem splitOnChar_ne_nil (sep : Char) (q : List Char) : splitOnChar sep q ≠ [] := by
  induction q with
  | nil => simp [splitOnChar]
  | cons c cs ih =>
    rw [splitOnChar_cons]
    by_cases hc : c = sep
    · simp [hc]
    · simp only [if_neg hc]
      cases hS : splitOnChar sep cs with
      | nil => exact absurd hS ih
      | cons a t => simp

theorem splitOnChar_length_two (sep : Char) :
    ∀ q : List Char, q.getLast? = some sep → 2 ≤ (splitOnChar sep q).length := by
  intro q
  induction q with
  | nil => intro h; simp at h
  | cons c cs ih =>
    intro h
    cases cs with
    | nil =>
      have hc : c = sep := by simpa using h
      simp [splitOnChar_cons, splitOnChar, hc]
    | cons d ds =>
      have h' : (d :: ds).getLast? = some sep := by
        rwa [List.getLast?_cons_cons] at h
      have hlen := ih h'
      rw [splitOnChar_cons]
      by_cases hc : c = sep
      · rw [if_pos hc]
        simp only [List.length_cons]
        omega
      · rw [if_neg hc]
        cases hS : splitOnChar sep (d :: ds) with
        | nil => exact absurd hS (splitOnChar_ne_nil sep (d :: ds))
        | cons a t =>
          rw [hS] at hlen
          simpa using hlen

theorem dropLast_modifyHead (l : List (List Char)) (f : List Char → List Char)
    (h : 2 ≤ l.length) : (l.modifyHead f).dropLast = (l.dropLast).modifyHead f := by
  match l with
  | [] => simp at h
  | [a] => simp at h
  | a :: b :: t => simp

theorem splitAmpGo_eq_specSplit :
    ∀ (q acc : List Char),
      splitAmpGo acc q =
        (if q.getLast? = some '&' then (splitOnChar '&' q).dropLast
         else splitOnChar '&' q).modifyHead (fun t => acc.reverse ++ t) := by
  intro q
  induction q with
  | nil => intro acc; simp [splitAmpGo, splitOnChar]
  | cons c rest ih =>
    intro acc
    rw [splitAmpGo_cons]
    by_cases hc : c = '&'
    · subst hc
      rw [if_pos rfl]
      cases rest with
      | nil =>
        simp [splitOnChar_cons, splitOnChar]
      | cons d ds =>
        have hne : (d :: ds) ≠ ([] : List Char) := by simp
        rw [if_neg hne, List.getLast?_cons_cons, splitOnChar_cons, if_pos rfl, ih []]
        by_cases htr : (d :: ds).getLast? = some '&'
        · rw [if_pos htr, if_pos htr]
          cases hS : splitOnChar '&' (d :: ds) with
          | nil => exact absurd hS (splitOnChar_ne_nil '&' (d :: ds))
          | cons a t =>
            cases t with
            | nil =>
              have h2 := splitOnChar_length_two '&' (d :: ds) htr
              rw [hS] at h2; simp at h2
            | cons b t2 => simp
        · rw [if_neg htr, if_neg htr]
          cases hS : splitOnChar '&' (d :: ds) with
          | nil => exact absurd hS (splitOnChar_ne_nil '&' (d :: ds))
          | cons a t => simp
    · rw [if_neg hc]
      cases rest with
      | nil =>
        have hcl : ¬ ([c].getLast? = some '&') := by simpa using hc
        have hnil : ¬ (([] : List Char).getLast? = some '&') := by simp
        rw [if_neg hcl, splitOnChar_cons, if_neg hc, ih (c :: acc), if_neg hnil]
        simp [splitOnChar]
      | cons d ds =>
        rw [List.getLast?_cons_cons, splitOnChar_cons, if_neg hc, ih (c :: acc)]
        by_cases htr : (d :: ds).getLast? = some '&'
        · rw [if_pos htr, if_pos htr,
            dropLast_modifyHead _ _ (splitOnChar_length_two '&' (d :: ds) htr),
            modifyHead_comp]
          refine modifyHead_ext _ _ _ (fun t => ?_)
          simp
        · rw [if_neg htr, if_neg htr, modifyHead_comp]
          refine modifyHead_ext _ _ _ (fun t => ?_)
          simp

theorem splitAmpGo_nil_acc (q : List Char) :
    splitAmpGo [] q =
      (if q.getLast? = some '&' then (splitOnChar '&' q).dropLast
       else splitOnChar '&' q) := by
  rw [splitAmpGo_eq_specSplit q []]
  cases h : (if q.getLast? = some '&' then (splitOnChar '&' q).dropLast
             else splitOnChar '&' q) with
  | nil => simp
  | cons a t => simp

/-! ## Lemmas: the format interpreter's fuel is irrelevant once sufficient -/

theorem renderGo_nil (uh : UrlHandle) (f : Nat) : renderGo uh f [] = [] := by
  cases f <;> rfl

theorem renderGo_cons (uh : UrlHandle) (f : Nat) (c : Char) (rest : List Char) :
    renderGo uh (f + 1) (c :: rest) =
      if c = '{' then
        if rest.head? = some '{' then '{' :: renderGo uh f rest.tail
        else
          if rest.dropWhile (fun x => x ≠ '}') = [] then renderGo uh f rest
          else refOutput uh (rest.takeWhile (fun x => x ≠ '}')) ++
            renderGo uh f (rest.dropWhile (fun x => x ≠ '}')).tail
      else if c = '\\' then
        if rest = [] then [c]
        else
          (if rest.headD ' ' = 'r' then ['\r']
           else if rest.headD ' ' = 'n' then ['\n']
           else if rest.headD ' ' = 't' then ['\t']
           else [c, rest.headD ' ']) ++ renderGo uh f rest.tail
      else c :: renderGo uh f rest := rfl

theorem dropWhile_length_le (p : Char → Bool) (l : List Char) :
    (l.dropWhile p).length ≤ l.length := by
  induction l with
  | nil => simp
  | cons a t ih =>
    rw [List.dropWhile_cons]
    by_cases h : p a
    · simp only [if_pos h, List.length_cons]
      omega
    · simp [h]

theorem renderGo_fuel (uh : UrlHandle) :
    ∀ f g l, l.length ≤ f → l.length ≤ g → renderGo uh f l = renderGo uh g l := by
  intro f
  induction f with
  | zero =>
    intro g l h1 _
    have hl : l = [] := List.eq_nil_of_length_eq_zero (Nat.le_zero.mp h1)
    subst hl
    rw [renderGo_nil, renderGo_nil]
  | succ f ih =>
    intro g l h1 h2
    cases l with
    | nil => rw [renderGo_nil, renderGo_nil]
    | cons c rest =>
      cases g with
      | zero => simp at h2
      | succ g =>
        have hr : rest.length ≤ f := by simp at h1; omega
        have hgr : rest.length ≤ g := by simp at h2; omega
        have htail : rest.tail.length ≤ rest.length := by
          rw [List.length_tail]; omega
        rw [renderGo_cons, renderGo_cons]
        by_cases hc : c = '{'
        · rw [if_pos hc, if_pos hc]
          by_cases hh : rest.head? = some '{'
          · rw [if_pos hh, if_pos hh]
            exact congrArg _ (ih g rest.tail (le_trans htail hr) (le_trans htail hgr))
          · rw [if_neg hh, if_neg hh]
            by_cases hdw : rest.dropWhile (fun x => x ≠ '}') = []
            · rw [if_pos hdw, if_pos hdw]
              exact ih g rest hr hgr
            · rw [if_neg hdw, if_neg hdw]
              have hdl : (rest.dropWhile (fun x => x ≠ '}')).tail.length ≤ rest.length := by
                rw [List.length_tail]
                have := dropWhile_length_le (fun x => x ≠ '}') rest
                omega
              exact congrArg _ (ih g _ (le_trans hdl hr) (le_trans hdl hgr))
        · rw [if_neg hc, if_neg hc]
          by_cases hb : c = '\\'
          · rw [if_pos hb, if_pos hb]
            by_cases hre : rest = []
            · rw [if_pos hre, if_pos hre]
            · rw [if_neg hre, if_neg hre]
              exact congrArg _ (ih g rest.tail (le_trans htail hr) (le_trans htail hgr))
          · rw [if_neg hb, if_neg hb]
            exact congrArg _ (ih g rest hr hgr)

theorem renderBody_cons_one (uh : UrlHandle) (c : Char) (rest : List Char) :
    renderBody uh (c :: rest) = renderGo uh (rest.length + 1) (c :: rest) := rfl

/-! ## Lemmas: trim matching agrees with the specification wording -/

theorem boolEqOfIff {a b : Bool} (h : a = true ↔ b = true) : a = b := by
  cases a <;> cases b <;> simp_all

theorem takeWhile_eq_take (p : Char → Bool) (q : List Char) :
    q.takeWhile p = q.take (q.takeWhile p).length :=
  List.prefix_iff_eq_take.mp (List.takeWhile_prefix p)

theorem lowerList_length (s : List Char) : (lowerList s).length = s.length := by
  simp [lowerList]

theorem lowerList_take (n : Nat) (s : List Char) :
    lowerList (s.take n) = (lowerList s).take n := by
  simp [lowerList, List.map_take]

theorem trimMatch_code_eq_spec (pat q : List Char) :
    trimMatchCode pat q = trimMatchSpec pat q := by
  have hkey := takeWhile_eq_take (fun c => c ≠ '=') q
  by_cases hstar : pat.getLast? = some '*'
  · have hlen1 : 1 ≤ pat.length := by
      cases pat with
      | nil => simp at hstar
      | cons a t => simp
    rw [trimMatchCode, trimMatchSpec]
    simp only [hstar, decide_True, Bool.true_and, Bool.not_true, Bool.false_and,
      Bool.or_false, if_pos, reduceIte]
    by_cases hle : pat.length - 1 ≤ (q.takeWhile (fun c => c ≠ '=')).length
    · rw [decide_eq_true hle]
      simp only [Bool.true_and]
      apply boolEqOfIff
      have htake : (q.takeWhile (fun c => c ≠ '=')).take (pat.length - 1) =
          q.take (pat.length - 1) := by
        conv_lhs => rw [hkey]
        rw [List.take_take, Nat.min_eq_left hle]
      have hdl : pat.dropLast = pat.take (pat.length - 1) := List.dropLast_eq_take pat
      have hm : min (pat.length - 1) pat.length = pat.length - 1 := by omega
      constructor
      · intro hcode
        rw [caseEqB, decide_eq_true_eq] at hcode
        rw [List.isPrefixOf_iff_prefix, List.prefix_iff_eq_take]
        rw [hdl, lowerList_take, List.length_take, lowerList_length]
        rw [hm, ← lowerList_take, ← lowerList_take, htake, hcode]
      · intro hspec
        rw [List.isPrefixOf_iff_prefix, List.prefix_iff_eq_take] at hspec
        rw [hdl, lowerList_take, List.length_take, lowerList_length] at hspec
        rw [hm, ← lowerList_take, ← lowerList_take, htake] at hspec
        rw [caseEqB, decide_eq_true_eq]
        exact hspec.symm
    · have h1 : decide (pat.length - 1 ≤ (List.takeWhile (fun c => c ≠ '=') q).length) = false := by
        simpa using hle
      rw [h1]
      simp
  · rw [trimMatchCode, trimMatchSpec]
    have hstar' : decide (pat.getLast? = some '*') = false := by simpa using hstar
    rw [hstar']
    simp only [Bool.false_and, Bool.false_or, Bool.not_false, Bool.true_and,
      if_neg hstar, Bool.false_eq_true, if_false]
    rw [List.take_length pat]
    by_cases heq : pat.length = (q.takeWhile (fun c => c ≠ '=')).length
    · have h1 : decide (pat.length = (List.takeWhile (fun c => c ≠ '=') q).length) = true :=
        decide_eq_true heq
      have h2 : decide ((List.takeWhile (fun c => c ≠ '=') q).length = pat.length) = true :=
        decide_eq_true heq.symm
      rw [h1, h2]
      simp only [Bool.true_and]
      have htake : q.take pat.length = q.takeWhile (fun c => c ≠ '=') := by
        rw [heq, ← hkey]
      rw [htake]
    · have h1 : decide (pat.length = (List.takeWhile (fun c => c ≠ '=') q).length) = false :=
        decide_eq_false heq
      have h2 : decide ((List.takeWhile (fun c => c ≠ '=') q).length = pat.length) = false :=
        decide_eq_false (fun h => heq h.symm)
      rw [h1, h2]
      simp

/-! ## Lemmas: the set() loop -/

theorem setRunGo_cons (uh : UrlHandle) (vs : Nat → Bool) (d : List Char)
    (ds : List (List Char)) :
    setRunGo uh vs (d :: ds) =
      match setApply1 uh vs d with
      | Except.error e => Except.error e
      | Except.ok (uh2, vs2) => setRunGo uh2 vs2 ds := rfl

theorem setApply1_eq (uh : UrlHandle) (vs : Nat → Bool) (d : List Char) :
    setApply1 uh vs d =
      match parseSetDirective d with
      | Except.error e => Except.error e
      | Except.ok (i, enc, v) =>
        Except.ok (setCompIdx uh i (applySetValue enc v),
          fun j => if j = i then true else vs j) := by
  cases hpd : parseSetDirective d with
  | error e => simp [setApply1, hpd]
  | ok t =>
    obtain ⟨i, enc, v⟩ := t
    simp [setApply1, hpd, o_is_null]

theorem parseSetDirective_no_setOnce (d : List Char) :
    parseSetDirective d ≠ Except.error SetErr.setOnce := by
  simp only [parseSetDirective]
  split
  · simp
  · split
    · simp
    · split <;> simp

theorem setApply1_ne_setOnce (uh : UrlHandle) (vs : Nat → Bool) (d : List Char) :
    setApply1 uh vs d ≠ Except.error SetErr.setOnce := by
  rw [setApply1_eq]
  cases hpd : parseSetDirective d with
  | error e =>
    intro hcontra
    have h2 : (Except.error e : Except SetErr (UrlHandle × (Nat → Bool))) =
        Except.error SetErr.setOnce := hcontra
    have he : e = SetErr.setOnce := by simpa using h2
    exact parseSetDirective_no_setOnce d (he ▸ hpd)
  | ok t =>
    obtain ⟨i, enc, v⟩ := t
    simp

theorem setRunGo_ne_setOnce :
    ∀ (ds : List (List Char)) (uh : UrlHandle) (vs : Nat → Bool),
      setRunGo uh vs ds ≠ Except.error SetErr.setOnce := by
  intro ds
  induction ds with
  | nil => intro uh vs; simp [setRunGo]
  | cons d ds ih =>
    intro uh vs
    rw [setRunGo_cons]
    cases hap : setApply1 uh vs d with
    | error e =>
      intro hcontra
      have h2 : (Except.error e : Except SetErr UrlHandle) =
          Except.error SetErr.setOnce := hcontra
      have he : e = SetErr.setOnce := by simpa using h2
      exact setApply1_ne_setOnce uh vs d (by rw [hap, he])
    | ok pr =>
      obtain ⟨uh1, vs1⟩ := pr
      exact ih uh1 vs1

theorem getComp_setCompIdx_same (uh : UrlHandle) (i : Nat) (v : Option (List Char))
    (h1 : 1 ≤ i) (h2 : i ≤ 10) : getComp (setCompIdx uh i v) i = v := by
  interval_cases i <;> rfl

theorem getComp_setCompIdx_other (uh : UrlHandle) (i j : Nat) (v : Option (List Char))
    (hi1 : 1 ≤ i) (hi2 : i ≤ 10) (hj1 : 1 ≤ j) (hj2 : j ≤ 10) (hne : i ≠ j) :
    getComp (setCompIdx uh i v) j = getComp uh j := by
  interval_cases i <;> interval_cases j <;> first | rfl | (exact absurd rfl hne)

theorem findVarGo_lt (nm : List Char) :
    ∀ (l : List (List Char)) (k i : Nat), findVarGo k nm l = some i → i < k + l.length := by
  intro l
  induction l with
  | nil => intro k i h; simp [findVarGo] at h
  | cons v vs ih =>
    intro k i h
    rw [findVarGo] at h
    by_cases hc : v.length = nm.length ∧ caseEqB v nm
    · rw [if_pos hc] at h
      have hki : k = i := by simpa using h
      subst hki
      simp only [List.length_cons]
      omega
    · rw [if_neg hc] at h
      have := ih (k + 1) i h
      simp only [List.length_cons]
      omega

theorem parse_target_lt (d : List Char) (i : Nat) (enc : Bool) (v : List Char)
    (h : parseSetDirective d = Except.ok (i, enc, v)) : i < 11 := by
  simp only [parseSetDirective] at h
  split at h
  · exact absurd h (by simp)
  · split at h
    · exact absurd h (by simp)
    · split at h
      · rename_i k hf
        rw [findVarIdx] at hf
        have hk : k < 0 + varNames.length := findVarGo_lt _ varNames 0 k hf
        have hke : k = i := by
          simp only [Except.ok.injEq, Prod.mk.injEq] at h
          exact h.1
        subst hke
        simpa [varNames] using hk
      · exact absurd h (by simp)

theorem lastSet_cons (d : List Char) (ds : List (List Char)) (i : Nat) :
    lastSet (d :: ds) i =
      match lastSet ds i with
      | some x => some x
      | none => if targetOf d = some i then encValOf d else none := rfl

theorem setRunGo_lastSet :
    ∀ (ds : List (List Char)) (uh : UrlHandle) (vs : Nat → Bool) (uh' : UrlHandle),
      setRunGo uh vs ds = Except.ok uh' →
      (∀ d ∈ ds, targetOf d ≠ some 0) →
      ∀ i, 1 ≤ i → i ≤ 10 →
        getComp uh' i =
          (match lastSet ds i with
           | some (enc, v) => applySetValue enc v
           | none => getComp uh i) := by
  intro ds
  induction ds with
  | nil =>
    intro uh vs uh' h _ i _ _
    have huh : uh = uh' := by simpa [setRunGo] using h
    subst huh
    simp [lastSet]
  | cons d ds ih =>
    intro uh vs uh' h h0 i hi1 hi2
    rw [setRunGo_cons] at h
    cases hap : setApply1 uh vs d with
    | error e => rw [hap] at h; exact absurd h (by simp)
    | ok pr =>
      obtain ⟨uh1, vs1⟩ := pr
      rw [hap] at h
      rw [setApply1_eq] at hap
      cases hpd : parseSetDirective d with
      | error e => rw [hpd] at hap; exact absurd hap (by simp)
      | ok t =>
        obtain ⟨i0, enc0, v0⟩ := t
        rw [hpd] at hap
        simp only [Except.ok.injEq, Prod.mk.injEq] at hap
        obtain ⟨huh1, hvs1⟩ := hap
        have hIH := ih uh1 vs1 uh' h
          (fun d' hd' => h0 d' (List.mem_cons_of_mem d hd')) i hi1 hi2
        rw [hIH, lastSet_cons]
        cases hls : lastSet ds i with
        | some x =>
          obtain ⟨xe, xv⟩ := x
          rfl
        | none =>
          have htd : targetOf d = some i0 := by simp [targetOf, hpd]
          have hev : encValOf d = some (enc0, v0) := by simp [encValOf, hpd]
          subst huh1
          by_cases hii : i0 = i
          · rw [htd, if_pos (by rw [hii]), hev, hii]
            exact getComp_setCompIdx_same uh i _ hi1 hi2
          · rw [htd, if_neg (fun hc => hii (Option.some.inj hc))]
            have hb : i0 < 11 := parse_target_lt d i0 enc0 v0 hpd
            have hz : i0 ≠ 0 := by
              intro h00
              exact h0 d (List.mem_cons_self d ds) (h00 ▸ htd)
            exact getComp_setCompIdx_other uh i0 i _ (by omega) (by omega) hi1 hi2 hii

/-! ## Lemmas: iteration expansion -/

theorem iterateTokens_length_cons (chain : List (List (List Char))) (d : List Char)
    (rest : List (List Char)) :
    (iterateTokens chain (d :: rest)).length = chain.length + rest.length := by
  simp [iterateTokens]

/-! ## Claims -/

/-- C1: with the single iteration directive `hosts=a b c`, expansion yields a
chain of three variants whose effective hosts follow the token order, and
processing the base URL `https://example.com/x` with format `{host}` emits
exactly the three lines `a`, `b`, `c` in that order.  (The model's uniform
`Options` record corresponds to a command line whose `--get` precedes
`--iterate`, the ordering under which every variant carries the format.) -/
theorem c1_iterate_hosts_order :
    processIterateFlag [[]] (("hosts=a b c").data) = Except.ok c1chain ∧
    c1chain.length = 3 ∧
    c1chain.map (fun sl => (setRun emptyHandle sl).map (fun uh => uh.host)) =
      [Except.ok (some ['a']), Except.ok (some ['b']), Except.ok (some ['c'])] ∧
    processUrlsArgv c1opts c1chain [("https://example.com/x").data] =
      Except.ok (("a\nb\nc\n").data) := by
  refine ⟨by decide, by decide, by decide, by decide⟩

/-- C2: the argv-mode driver processes the URL once per variant in chain
order, but the file-mode variant walk (`while(opt->iterate != NULL)`,
lines 941-944) never processes the last chain node: with no `--iterate`
(a one-node chain) a file line is processed zero times, contradicting the
claim that every variant, including the last, is processed. -/
theorem c2_file_mode_drops_last_variant :
    filePasses [[]] [("https://example.com/x").data] = [] ∧
    argvPasses [[]] [("https://example.com/x").data] =
      [((("https://example.com/x").data), ([] : List (List Char)))] := by
  refine ⟨by decide, by decide⟩

/-- C3 (counterexample): the round trip fails on a query of 1001 non-empty
pairs, because `addqpair` drops every pair beyond `MAX_QPAIRS`. -/
theorem c3_roundtrip_fails_beyond_capacity :
    qpair2query (extractqpairs (joinAmp (List.replicate 1001 (['a'] : List Char)))).pairs ≠
      some (joinAmp (List.replicate 1001 (['a'] : List Char))) := by
  intro hcontra
  have hall : ∀ p ∈ List.replicate 1001 (['a'] : List Char), p ≠ [] ∧ '&' ∉ p := by
    intro p hp
    rw [List.eq_of_mem_replicate hp]
    exact ⟨by decide, by decide⟩
  have hne : List.replicate 1001 (['a'] : List Char) ≠ [] := by simp
  have hext := extract_join _ hne hall
  have hsplit : List.replicate 1001 (['a'] : List Char) =
      List.replicate 1000 (['a'] : List Char) ++ List.replicate 1 (['a'] : List Char) := by
    rw [← List.replicate_add]
  have htake : (List.replicate 1001 (['a'] : List Char)).take MAX_QPAIRS =
      List.replicate 1000 (['a'] : List Char) := by
    show (List.replicate 1001 (['a'] : List Char)).take 1000 = _
    rw [hsplit]
    exact List.take_left' (by simp)
  rw [hext] at hcontra
  simp only [] at hcontra
  rw [htake] at hcontra
  have hre : qpair2query (List.replicate 1000 (['a'] : List Char)) =
      some (joinAmp (List.replicate 1000 (['a'] : List Char))) := by
    apply qpair2query_join
    · simp
    · intro p hp
      rw [List.eq_of_mem_replicate hp]
      decide
  rw [hre] at hcontra
  have hj := Option.some.inj hcontra
  have h1 := joinAmp_replicate_length 999 (['a'] : List Char)
  have h2 := joinAmp_replicate_length 1000 (['a'] : List Char)
  have h999 : (999 : Nat) + 1 = 1000 := rfl
  have h1000 : (1000 : Nat) + 1 = 1001 := rfl
  rw [h999] at h1
  rw [h1000] at h2
  rw [hj] at h1
  have hlen : (['a'] : List Char).length = 1 := rfl
  rw [hlen] at h1 h2
  omega

/-- C3 (amended): for a query string of at most `MAX_QPAIRS` non-empty
`&`-separated pairs (and no trailing bare `&`), rebuilding the extracted
pairs reproduces the query exactly — pair order and content preserved,
including pairs with empty values after `=`. -/
theorem c3_query_roundtrip_upto_capacity (ps : List (List Char)) (hne : ps ≠ [])
    (hcap : ps.length ≤ MAX_QPAIRS) (hall : ∀ p ∈ ps, p ≠ [] ∧ '&' ∉ p) :
    qpair2query (extractqpairs (joinAmp ps)).pairs = some (joinAmp ps) := by
  rw [extract_join ps hne hall]
  simp only []
  rw [List.take_of_length_le hcap]
  exact qpair2query_join ps hne (fun p hp => (hall p hp).1)

/-- C3 witness: the two-pair query `a&b=` (second pair with an empty value)
round-trips. -/
theorem c3_query_roundtrip_witness :
    (([("a").data, ("b=").data] : List (List Char)) ≠ []) ∧
    (([("a").data, ("b=").data] : List (List Char)).length ≤ MAX_QPAIRS) ∧
    (∀ p ∈ ([("a").data, ("b=").data] : List (List Char)), p ≠ [] ∧ '&' ∉ p) ∧
    qpair2query (extractqpairs (joinAmp [("a").data, ("b=").data])).pairs =
      some (joinAmp [("a").data, ("b=").data]) :=
  ⟨by decide, by decide, by decide,
   c3_query_roundtrip_upto_capacity _ (by decide) (by decide) (by decide)⟩

/-- C4 (counterexample): a query ending in a bare trailing `&` stores no
final empty pair: `a&` yields exactly one stored pair, not `["a", ""]`. -/
theorem c4_trailing_amp_no_empty_pair :
    (extractqpairs ('a' :: '&' :: [])).pairs = [['a']] ∧
    ([['a']] : List (List Char)) ≠ [['a'], []] := by
  refine ⟨by decide, by decide⟩

/-- C4 (amended): `extractqpairs` splits the query on `&` and stores every
substring verbatim, including empty ones from consecutive `&&`; but after
a trailing `&` scanning stops and no final empty pair is stored; at most
`MAX_QPAIRS` pairs are kept.  `specExtract` states exactly that. -/
theorem c4_extract_split_amended (q : List Char) :
    (extractqpairs q).pairs = specExtract q := by
  by_cases hq : q = []
  · subst hq; rfl
  · rw [extractqpairs, if_neg hq, extractGo_eq_foldl, foldl_addqpair, specExtract, if_neg hq]
    simp only []
    rw [splitAmpGo_nil_acc]
    simp

/-- C5: a trim directive's pattern is compared case-insensitively against
the key portion of each stored pair (text before the first `=`, or the
whole pair without one); a pattern ending in `*` prefix-matches keys of
length at least the pattern's length minus one, any other pattern matches
only keys of exactly its length; matching pairs are tombstoned to the
empty string in place and the rest are untouched.  The code's directive
application equals the map stated by `trimMatchSpec`. -/
theorem c5_trim_pattern_matching (pat : List Char) (pairs : List (List Char)) :
    trimDirective ((("query=").data) ++ pat) pairs =
      Except.ok (pairs.map (fun q => if trimMatchSpec pat q then [] else q)) := by
  have h5 : caseEqB (((("query=").data) ++ pat).take 5) (("query").data) = true := rfl
  have hk : ((("query=").data ++ pat).takeWhile (fun c => c ≠ '=')).length = 5 := rfl
  simp only [trimDirective]
  rw [if_neg (fun hcc => hcc h5), hk]
  have hcond : ¬ ((5 : Nat) = (("query=").data ++ pat).length ∨ (5 : Nat) = 0) := by
    rw [List.length_append]
    have h6 : ((("query=").data).length : Nat) = 6 := rfl
    rw [h6]
    omega
  rw [if_neg hcond]
  have hdrop : (("query=").data ++ pat).drop (5 + 1) = pat := rfl
  rw [hdrop]
  have hfun : (fun q => if trimMatchCode pat q then ([] : List Char) else q) =
      (fun q => if trimMatchSpec pat q then ([] : List Char) else q) := by
    funext qq
    rw [trimMatch_code_eq_spec]
  rw [hfun]

/-- C6 (counterexample): with the format `ab{cd` — a `{` not followed by
`{` and with no closing `}` — rendering does not stop: the characters
after the `{` are still emitted, so the output is `abcd` plus the newline
rather than only `ab` plus the newline. -/
theorem c6_unclosed_ref_not_silent_stop :
    render emptyHandle ['a', 'b', '{', 'c', 'd'] =
      ('a' :: 'b' :: 'c' :: 'd' :: '\n' :: []) ∧
    ('a' :: 'b' :: 'c' :: 'd' :: '\n' :: []) ≠ ('a' :: 'b' :: '\n' :: []) := by
  refine ⟨by decide, by decide⟩

/-- C6 (amended): when a `{` is not followed by another `{` and no `}`
exists in the remainder, the `{` itself is skipped silently (the
`continue` after `ptr++`) and rendering carries on with the remaining
characters processed normally. -/
theorem c6_unclosed_ref_continues (uh : UrlHandle) (rest : List Char)
    (hh : rest.head? ≠ some '{') (hcl : '}' ∉ rest) :
    renderBody uh ('{' :: rest) = renderBody uh rest := by
  show renderGo uh (rest.length + 1) ('{' :: rest) = renderBody uh rest
  rw [renderGo_cons, if_pos rfl, if_neg hh]
  have hdw : rest.dropWhile (fun x => x ≠ '}') = [] := by
    rw [List.dropWhile_eq_nil_iff]
    intro x hx
    simp only [ne_eq, decide_eq_true_eq]
    intro heq
    exact hcl (heq ▸ hx)
  rw [if_pos hdw]
  rfl

/-- C6 witness: skipping the unmatched `{` before `cd`. -/
theorem c6_unclosed_ref_witness :
    ((("cd").data).head? ≠ some '{') ∧ ('}' ∉ ("cd").data) ∧
    renderBody emptyHandle ('{' :: ("cd").data) = renderBody emptyHandle (("cd").data) :=
  ⟨by decide, by decide, c6_unclosed_ref_continues emptyHandle _ (by decide) (by decide)⟩

/-- C7: `{{` emits one literal `{` and advances two characters without
consuming a matching `}}` — the rest of the format is rendered normally —
and concretely the format `{{id}}` renders as the text `{id}}` followed
by the single trailing newline. -/
theorem c7_double_brace_literal :
    (∀ (uh : UrlHandle) (rest : List Char),
      renderBody uh ('{' :: '{' :: rest) = '{' :: renderBody uh rest) ∧
    (∀ uh : UrlHandle,
      render uh ('{' :: '{' :: 'i' :: 'd' :: '}' :: '}' :: []) =
        ('{' :: 'i' :: 'd' :: '}' :: '}' :: '\n' :: [])) := by
  constructor
  · intro uh rest
    show renderGo uh (rest.length + 1 + 1) ('{' :: '{' :: rest) = '{' :: renderBody uh rest
    rw [renderGo_cons, if_pos rfl,
      if_pos (show ('{' :: rest).head? = some '{' from rfl)]
    exact congrArg _ (renderGo_fuel uh (rest.length + 1) rest.length rest
      (by omega) (by omega))
  · intro uh
    rfl

/-- C8: a query of more than `MAX_QPAIRS` (1000) non-empty pairs stores
exactly the first 1000 pairs, emits at least one non-fatal "too many
query pairs" warning (`warnf`; there is no fatal exit in this path), and
the rebuilt query is the join of the first 1000 pairs only. -/
theorem c8_capacity_bound (ps : List (List Char)) (hover : MAX_QPAIRS < ps.length)
    (hall : ∀ p ∈ ps, p ≠ [] ∧ '&' ∉ p) :
    extractqpairs (joinAmp ps) =
      ⟨ps.take MAX_QPAIRS, ps.length - MAX_QPAIRS⟩ ∧
    0 < (extractqpairs (joinAmp ps)).warns ∧
    qpair2query (extractqpairs (joinAmp ps)).pairs =
      some (joinAmp (ps.take MAX_QPAIRS)) := by
  have hne : ps ≠ [] := by
    intro h
    rw [h] at hover
    simp [MAX_QPAIRS] at hover
  have hext := extract_join ps hne hall
  have hM : MAX_QPAIRS = 1000 := rfl
  refine ⟨hext, ?_, ?_⟩
  · rw [hext]
    simp only []
    omega
  · rw [hext]
    simp only []
    apply qpair2query_join
    · intro h
      have hlt := congrArg List.length h
      rw [List.length_take] at hlt
      simp only [List.length_nil] at hlt
      omega
    · intro p hp
      exact (hall p (List.mem_of_mem_take hp)).1

/-- C8 witness: 1001 copies of the pair `a`. -/
theorem c8_capacity_witness :
    (MAX_QPAIRS < (List.replicate 1001 (['a'] : List Char)).length) ∧
    (∀ p ∈ List.replicate 1001 (['a'] : List Char), p ≠ [] ∧ '&' ∉ p) ∧
    (extractqpairs (joinAmp (List.replicate 1001 (['a'] : List Char))) =
      ⟨(List.replicate 1001 (['a'] : List Char)).take MAX_QPAIRS,
       (List.replicate 1001 (['a'] : List Char)).length - MAX_QPAIRS⟩ ∧
     0 < (extractqpairs (joinAmp (List.replicate 1001 (['a'] : List Char)))).warns ∧
     qpair2query (extractqpairs (joinAmp (List.replicate 1001 (['a'] : List Char)))).pairs =
       some (joinAmp ((List.replicate 1001 (['a'] : List Char)).take MAX_QPAIRS))) :=
  ⟨by simp [MAX_QPAIRS],
   by
     intro p hp
     rw [List.eq_of_mem_replicate hp]
     exact ⟨by decide, by decide⟩,
   c8_capacity_bound _ (by simp [MAX_QPAIRS])
     (by
       intro p hp
       rw [List.eq_of_mem_replicate hp]
       exact ⟨by decide, by decide⟩)⟩

/-- C9 (counterexample): two `--iterate` directives are not always
rejected: after a single-token `--iterate "hosts=a"` the chain still has
one node (`op->iterate` stays NULL), so a second `--iterate "hosts=b"` is
accepted and simply appends `host=b` to the base set-list. -/
theorem c9_second_iterate_accepted_after_single :
    (processIterateFlag [[]] (("hosts=a").data)).bind
      (fun chain => processIterateFlag chain (("hosts=b").data)) =
      Except.ok [[("host=a").data, ("host=b").data]] := by
  decide

/-- C9 (amended): a second `--iterate` is rejected with the fatal
`ERROR_ITER` "only one --iterate" exit exactly when the first directive
expanded into two or more variants, i.e. carried at least two tokens. -/
theorem c9_second_iterate_rejected_after_multi (base : List (List Char))
    (arg1 arg2 : List Char) (chain2 : List (List (List Char)))
    (h1 : processIterateFlag [base] arg1 = Except.ok chain2)
    (h2 : 2 ≤ numTokens arg1) :
    processIterateFlag chain2 arg2 = Except.error IterErr.duplicate := by
  rw [processIterateFlag, if_neg (by simp)] at h1
  rw [iterateFn] at h1
  cases hp : iterParts arg1 with
  | none => rw [hp] at h1; exact absurd h1 (by simp)
  | some pr =>
    obtain ⟨pre, off⟩ := pr
    rw [hp] at h1
    replace h1 : (if off + 1 ≥ arg1.length then
        (Except.error IterErr.missing : Except IterErr (List (List (List Char))))
      else Except.ok (iterateTokens [base]
        ((iterRemTokens arg1 off).map (fun t => pre ++ t)))) = Except.ok chain2 := h1
    by_cases hg : off + 1 ≥ arg1.length
    · rw [if_pos hg] at h1
      exact absurd h1 (by simp)
    · rw [if_neg hg] at h1
      have hchain : chain2 =
          iterateTokens [base] ((iterRemTokens arg1 off).map (fun t => pre ++ t)) := by
        have := h1
        simp only [Except.ok.injEq] at this
        exact this.symm
      have hnum : numTokens arg1 = (iterRemTokens arg1 off).length := by
        simp [numTokens, hp]
      have hlen2 : 2 ≤ ((iterRemTokens arg1 off).map (fun t => pre ++ t)).length := by
        rw [List.length_map, ← hnum]
        exact h2
      have hlen : 2 ≤ chain2.length := by
        rw [hchain]
        cases hts : (iterRemTokens arg1 off).map (fun t => pre ++ t) with
        | nil => rw [hts] at hlen2; simp at hlen2
        | cons t rest =>
          rw [hts] at hlen2
          rw [iterateTokens_length_cons]
          simp only [List.length_cons] at hlen2
          simp only [List.length_singleton]
          omega
      rw [processIterateFlag, if_pos (by omega)]

/-- C9 witness: `hosts=a b` arms the duplicate check; `hosts=c` is then
rejected. -/
theorem c9_second_iterate_witness :
    processIterateFlag [[]] (("hosts=a b").data) =
      Except.ok [[("host=a").data], [("host=a").data, ("host=b").data]] ∧
    2 ≤ numTokens (("hosts=a b").data) ∧
    processIterateFlag [[("host=a").data], [("host=a").data, ("host=b").data]]
      (("hosts=c").data) = Except.error IterErr.duplicate :=
  ⟨by decide, by decide,
   c9_second_iterate_rejected_after_multi [] (("hosts=a b").data) (("hosts=c").data)
     [[("host=a").data], [("host=a").data, ("host=b").data]] (by decide) (by decide)⟩

/-- C10: the fatal "A component can only be set once per URL" exit of
`set()` is unreachable — its guard is `varset[i] && !o` and `o` is never
a null pointer at a call site — so every well-formed directive of the
list is applied in order, and when a stored component (indices 1-10,
with no directive re-parsing the whole `url`) is named by several
directives its final value is that of the last one. -/
theorem c10_set_once_guard_unreachable :
    (∀ (ds : List (List Char)) (uh : UrlHandle) (vs : Nat → Bool),
      setRunGo uh vs ds ≠ Except.error SetErr.setOnce) ∧
    (∀ (ds : List (List Char)) (uh uh' : UrlHandle),
      setRun uh ds = Except.ok uh' →
      (∀ d ∈ ds, targetOf d ≠ some 0) →
      ∀ i, 1 ≤ i → i ≤ 10 →
        getComp uh' i =
          (match lastSet ds i with
           | some (enc, v) => applySetValue enc v
           | none => getComp uh i)) := by
  refine ⟨fun ds uh vs => setRunGo_ne_setOnce ds uh vs, ?_⟩
  intro ds uh uh' h h0 i hi1 hi2
  exact setRunGo_lastSet ds uh _ uh' h h0 i hi1 hi2

/-- C10 witness: `host=a` then `host=b` both apply and the final host is
`b`, with no set-once error. -/
theorem c10_set_once_witness :
    setRun emptyHandle [("host=a").data, ("host=b").data] =
      Except.ok (⟨none, none, none, none, some ['b'], none, none, none, none, none⟩ :
        UrlHandle) ∧
    (∀ d ∈ ([("host=a").data, ("host=b").data] : List (List Char)),
      targetOf d ≠ some 0) ∧
    (1 : Nat) ≤ 5 ∧ (5 : Nat) ≤ 10 ∧
    getComp (⟨none, none, none, none, some ['b'], none, none, none, none, none⟩ :
        UrlHandle) 5 =
      (match lastSet [("host=a").data, ("host=b").data] 5 with
       | some (enc, v) => applySetValue enc v
       | none => getComp emptyHandle 5) :=
  ⟨by decide, by decide, by decide, by decide,
   c10_set_once_guard_unreachable.2 [("host=a").data, ("host=b").data] emptyHandle
     (⟨none, none, none, none, some ['b'], none, none, none, none, none⟩ : UrlHandle)
     (by decide) (by decide) 5 (by decide) (by decide)⟩
